import Mathlib

/-!
Shallow embedding of `src/modules/connections-tree/model.cpp`
(class `ConnectionsTree::Model`, a `QAbstractItemModel` over a lazily loaded
tree of `TreeItem` nodes), together with theorems settling the specification
claims about it.

Conventions of the embedding:

* A node's internal pointer is represented by the node's path (the list of
  child positions) from the root list.  For a fixed tree this is in bijection
  with object identity, because every node is exclusively owned by its parent
  (spec section 3, "Ownership").
* `QWeakPointer` arguments of the signal handlers are represented by
  `Option (List Nat)`: `none` is a null weak pointer, and a path whose node no
  longer exists resolves to nothing (an expired pointer).
* Qt framework primitives used by the code (`QModelIndex`, `hasIndex`, `QHash`
  insertion, `QSet`, `QSettings`, `QAbstractItemModel::match`) are not part of
  the repository; they are modelled from the spec, as are the
  `TreeItem`/`ServerItem` member functions (`items/*.cpp` is not under the
  sources provided).
* Emitted Qt signals and calls into the item layer are collected in an
  explicit `Event` list, in emission order.  The state mutation performed by a
  member function happens between its begin- and end-notifications, exactly as
  in the C++ body.
-/

namespace ConnectionsTree

/-- Modelled from the spec: the `QVariant` values the model returns (section 6:
all served roles are string valued); `empty` is the null `QVariant`. -/
inductive QVariant where
  | empty
  | str (s : String)
deriving DecidableEq

/-- Modelled from the spec: the data roles the model serves (`model.cpp` lines
29-34: `itemName`, `Qt::DecorationRole`, `itemType`, `itemOriginalName`;
every other role falls through to the empty `QVariant`). -/
inductive Role where
  | itemName
  | itemOriginalName
  | itemType
  | decorationRole
  | otherRole
deriving DecidableEq

/-- Modelled from the spec: `Qt::ItemFlags` restricted to the two flags the
model ever sets (`Qt::ItemIsSelectable` and `Qt::ItemIsEnabled`). -/
structure ItemFlags where
  selectable : Bool
  enabled : Bool
deriving DecidableEq

/-- Modelled from the spec: `Qt::NoItemFlags`. -/
def noItemFlags : ItemFlags := { selectable := false, enabled := false }

/-- Modelled from the spec: a `QModelIndex` carries a row, a column and the
internal pointer (here: the node's path); `invalid` is the default-constructed
`QModelIndex`. -/
inductive QModelIndex where
  | invalid
  | idx (row col : Int) (ptr : List Nat)
deriving DecidableEq

/-- Modelled from the spec: `QModelIndex::row` (an invalid index reports -1). -/
def QModelIndex.row : QModelIndex → Int
  | .invalid => -1
  | .idx r _ _ => r

/-- Modelled from the spec: `QModelIndex::column` (an invalid index reports -1). -/
def QModelIndex.column : QModelIndex → Int
  | .invalid => -1
  | .idx _ c _ => c

/-- Modelled from the spec: `QModelIndex::internalPointer`; the null pointer of
an invalid index is rendered as the empty path. -/
def QModelIndex.internalPointer : QModelIndex → List Nat
  | .invalid => []
  | .idx _ _ q => q

/-- Modelled from the spec: `QModelIndex::isValid` — an index produced by
`createIndex` is valid iff its row and column are nonnegative. -/
def QModelIndex.isValid : QModelIndex → Bool
  | .invalid => false
  | .idx r c _ => decide (0 ≤ r) && decide (0 ≤ c)

/-- The observable effects of the model: Qt structural notifications, the
`expand` signal, and the calls dispatched into the item layer. -/
inductive Event where
  | beginInsertRows (parent : QModelIndex) (first last : Int)
  | endInsertRows
  | beginRemoveRows (parent : QModelIndex) (first last : Int)
  | endRemoveRows
  | dataChanged (topLeft bottomRight : QModelIndex)
  | expand (i : QModelIndex)
  | fetchMoreCall (ptr : List Nat)
  | handleEventCall (ptr : List Nat) (ev : String)
deriving DecidableEq

/-- Modelled from the spec: the attribute record of a `TreeItem` (spec section 3
and the node-facing contract of section 6).  `id` stands for the object
identity of a `ServerItem` handle (used by `QList::removeAll`), `row` for the
stored row assigned through `setRow`. -/
structure ItemData where
  id : Nat
  name : String
  displayName : String
  itype : String
  iconUrl : String
  enabled : Bool
  row : Int
  canFetchMoreF : Bool
  metadata : List (String × QVariant)
deriving DecidableEq

/-- Modelled from the spec: a `TreeItem` together with its exclusively owned,
ordered children (spec section 3). -/
inductive TreeItem where
  | node (d : ItemData) (children : List TreeItem)

/-- The attribute record of a node. -/
def TreeItem.dataOf : TreeItem → ItemData
  | .node d _ => d

/-- Modelled from the spec: the ordered child sequence of a node. -/
def TreeItem.children : TreeItem → List TreeItem
  | .node _ cs => cs

/-- Modelled from the spec: `TreeItem::getName` (the original/raw name). -/
def TreeItem.getName (t : TreeItem) : String := t.dataOf.name

/-- Modelled from the spec: `TreeItem::getDisplayName`. -/
def TreeItem.getDisplayName (t : TreeItem) : String := t.dataOf.displayName

/-- Modelled from the spec: `TreeItem::getType` (the type tag string). -/
def TreeItem.getType (t : TreeItem) : String := t.dataOf.itype

/-- Modelled from the spec: `TreeItem::getIconUrl`. -/
def TreeItem.getIconUrl (t : TreeItem) : String := t.dataOf.iconUrl

/-- Modelled from the spec: `TreeItem::isEnabled`. -/
def TreeItem.isEnabled (t : TreeItem) : Bool := t.dataOf.enabled

/-- Modelled from the spec: the stored row of a `ServerItem` (`ServerItem::row`
returns the value assigned by `setRow`). -/
def TreeItem.row (t : TreeItem) : Int := t.dataOf.row

/-- Modelled from the spec: `ServerItem::setRow`. -/
def TreeItem.setRow (t : TreeItem) (r : Int) : TreeItem :=
  .node { t.dataOf with row := r } t.children

/-- Modelled from the spec: `TreeItem::childCount`. -/
def TreeItem.childCount (t : TreeItem) : Nat := t.children.length

/-- Modelled from the spec: `TreeItem::canFetchMore` (the node's load state). -/
def TreeItem.canFetchMore (t : TreeItem) : Bool := t.dataOf.canFetchMoreF

/-- Modelled from the spec: `TreeItem::setMetadata` — string-keyed metadata
update on the node. -/
def TreeItem.setMetadata (t : TreeItem) (key : String) (v : QVariant) : TreeItem :=
  .node { t.dataOf with
          metadata := (key, v) :: t.dataOf.metadata.filter (fun kv => kv.1 ≠ key) }
    t.children

/-- Modelled from the spec: `TreeItem::metadata key` — lookup in the node's
string-keyed metadata mapping; an absent key yields the empty `QVariant`. -/
def TreeItem.metadataAt (t : TreeItem) (key : String) : QVariant :=
  match t.dataOf.metadata.lookup key with
  | some v => v
  | none => .empty

/-- Walk a relative path inside a subtree: `descend t s` is the node reached
from `t` by taking child positions `s` in order. -/
def descend (t : TreeItem) : List Nat → Option TreeItem
  | [] => some t
  | i :: rest =>
    match t.children.get? i with
    | some c => descend c rest
    | none => none

/-- Resolve an absolute path against the root list.  The empty path denotes no
node (the conceptual root is not a `TreeItem`). -/
def nodeAtPath (roots : List TreeItem) : List Nat → Option TreeItem
  | [] => none
  | i :: rest =>
    match roots.get? i with
    | some t => descend t rest
    | none => none

/-- Apply `f` to the node reached by the given relative path (identity if the
path does not resolve). -/
def updateNode (f : TreeItem → TreeItem) : List Nat → TreeItem → TreeItem
  | [], t => f t
  | i :: rest, .node d cs =>
    match cs.get? i with
    | some c => .node d (cs.set i (updateNode f rest c))
    | none => .node d cs

/-- Apply `f` to the node at the given absolute path in the root list. -/
def updateForest (f : TreeItem → TreeItem) (q : List Nat) (roots : List TreeItem) :
    List TreeItem :=
  match q with
  | [] => roots
  | i :: rest =>
    match roots.get? i with
    | some t => roots.set i (updateNode f rest t)
    | none => roots

/-- Modelled from the spec: `TreeItem::row` for an arbitrary node — the row of
a non-root node is recomputed from its owner (its position in the parent's
child sequence, which for a path is its last component), while a root
`ServerItem` returns its stored row (spec sections 4.2 and 6). -/
def rowOfPath (roots : List TreeItem) (q : List Nat) : Int :=
  match q with
  | [] => -1
  | [i] =>
    match roots.get? i with
    | some t => t.row
    | none => -1
  | _ :: _ :: _ => (q.getLastD 0 : Int)

/-- Modelled from the spec: `QHash::insert` on the raw-pointer registry,
rendered as set insertion of the path. -/
def insertPath (q : List Nat) (l : List (List Nat)) : List (List Nat) :=
  if q ∈ l then l else q :: l

/-- Modelled from the spec: `QSet::insert` on the expanded-names set. -/
def insertName (nm : String) (l : List String) : List String :=
  if nm ∈ l then l else nm :: l

/-- The state of `ConnectionsTree::Model`: the root list `m_treeItems`, the
raw-pointer registry `m_rawPointers` (the set of registered internal
pointers), and the expanded-namespaces set `m_expanded`. -/
structure Model where
  m_treeItems : List TreeItem
  m_rawPointers : List (List Nat)
  m_expanded : List String

/-- Modelled from the spec (section 4.1): `Model::getItemFromIndex` resolves an
index through the weak-pointer registry — no node for an invalid index, for a
never-registered pointer, or for a pointer whose node has been freed. -/
def Model.getItemFromIndex (st : Model) (i : QModelIndex) : Option TreeItem :=
  match i with
  | .invalid => none
  | .idx _ _ q =>
    if i.isValid ∧ q ∈ st.m_rawPointers then nodeAtPath st.m_treeItems q
    else none

/-- Modelled from the spec: `Model::columnCount` is fixed at 1 (single display
column, spec section 6). -/
def Model.columnCount (_st : Model) (_parent : QModelIndex) : Int := 1

/-- `Model::rowCount` (model.cpp lines 101-112). -/
def Model.rowCount (st : Model) (parent : QModelIndex) : Int :=
  match Model.getItemFromIndex st parent with
  | none => (st.m_treeItems.length : Int)
  | some parentItem =>
    if 0 < parent.column then 0
    else (parentItem.childCount : Int)

/-- Modelled from the spec: `QAbstractItemModel::hasIndex` — row and column
must be nonnegative and within `rowCount`/`columnCount` of the parent. -/
def Model.hasIndex (st : Model) (row col : Int) (parent : QModelIndex) : Prop :=
  0 ≤ row ∧ 0 ≤ col ∧ row < Model.rowCount st parent ∧ col < Model.columnCount st parent

instance (st : Model) (row col : Int) (parent : QModelIndex) :
    Decidable (Model.hasIndex st row col parent) := by
  unfold Model.hasIndex; infer_instance

/-- The path of the child produced by `Model::index` (model.cpp lines 62-83):
after the `hasIndex` guard, the child is taken from the resolved parent's
children, or from the root list when the parent resolves to no node. -/
def Model.indexPath (st : Model) (row col : Int) (parent : QModelIndex) :
    Option (List Nat) :=
  if ¬ Model.hasIndex st row col parent then none
  else
    match parent, Model.getItemFromIndex st parent with
    | QModelIndex.idx _ _ pq, some parentItem =>
      match parentItem.children.get? row.toNat with
      | some _ => some (pq ++ [row.toNat])
      | none => none
    | _, _ =>
      match st.m_treeItems.get? row.toNat with
      | some _ => some [row.toNat]
      | none => none

/-- `Model::index` (model.cpp lines 62-83): an out-of-bounds request or a null
child yields the invalid index; otherwise the child is registered in
`m_rawPointers` and `createIndex(row, column, child)` is returned. -/
def Model.index (st : Model) (row col : Int) (parent : QModelIndex) :
    Model × QModelIndex :=
  match Model.indexPath st row col parent with
  | none => (st, QModelIndex.invalid)
  | some q =>
    ({ st with m_rawPointers := insertPath q st.m_rawPointers },
     QModelIndex.idx row col q)

/-- `Model::parent` (model.cpp lines 85-99): resolve the child, return the
invalid index if it cannot be resolved or has no parent (root node, path of
length 1); otherwise register the parent and return
`createIndex(parent->row(), 0, parent)`. -/
def Model.parent (st : Model) (i : QModelIndex) : Model × QModelIndex :=
  match i with
  | .invalid => (st, QModelIndex.invalid)
  | .idx _ _ q =>
    match Model.getItemFromIndex st i with
    | none => (st, QModelIndex.invalid)
    | some _ =>
      if q.length ≤ 1 then (st, QModelIndex.invalid)
      else
        ({ st with m_rawPointers := insertPath q.dropLast st.m_rawPointers },
         QModelIndex.idx (rowOfPath st.m_treeItems q.dropLast) 0 q.dropLast)

/-- `Model::getIndexFromItem` (model.cpp lines 114-120): for a weak pointer
that is non-null and alive, `createIndex(item->row(), 0, item)`; otherwise the
invalid index.  Note that this does not register the pointer. -/
def Model.getIndexFromItem (st : Model) (w : Option (List Nat)) : QModelIndex :=
  match w with
  | none => QModelIndex.invalid
  | some q =>
    match nodeAtPath st.m_treeItems q with
    | some _ => QModelIndex.idx (rowOfPath st.m_treeItems q) 0 q
    | none => QModelIndex.invalid

/-- `Model::data` (model.cpp lines 22-37). -/
def Model.data (st : Model) (i : QModelIndex) (role : Role) : QVariant :=
  match Model.getItemFromIndex st i with
  | none => QVariant.empty
  | some item =>
    match role with
    | .itemName => QVariant.str item.getDisplayName
    | .decorationRole => QVariant.str item.getIconUrl
    | .itemType => QVariant.str item.getType
    | .itemOriginalName => QVariant.str item.getName
    | .otherRole => QVariant.empty

/-- `Model::flags` (model.cpp lines 47-60). -/
def Model.flags (st : Model) (i : QModelIndex) : ItemFlags :=
  match Model.getItemFromIndex st i with
  | none => noItemFlags
  | some item => { selectable := true, enabled := item.isEnabled }

/-- `Model::canFetchMore` (model.cpp lines 122-127): `i && i->canFetchMore()`. -/
def Model.canFetchMore (st : Model) (parent : QModelIndex) : Bool :=
  match Model.getItemFromIndex st parent with
  | none => false
  | some item => item.canFetchMore

/-- `Model::fetchMore` (model.cpp lines 129-137): no-op when the index does not
resolve, otherwise the call is dispatched to the item. -/
def Model.fetchMore (st : Model) (parent : QModelIndex) : Model × List Event :=
  match Model.getItemFromIndex st parent with
  | none => (st, [])
  | some _ => (st, [Event.fetchMoreCall parent.internalPointer])

/-- `Model::getMetadata` (model.cpp lines 205-213). -/
def Model.getMetadata (st : Model) (i : QModelIndex) (metaKey : String) : QVariant :=
  match Model.getItemFromIndex st i with
  | none => QVariant.empty
  | some item => item.metadataAt metaKey

/-- `Model::setMetadata` (model.cpp lines 215-223). -/
def Model.setMetadata (st : Model) (i : QModelIndex) (metaKey : String) (v : QVariant) :
    Model :=
  match Model.getItemFromIndex st i with
  | none => st
  | some _ =>
    { st with
      m_treeItems :=
        updateForest (fun t => t.setMetadata metaKey v) i.internalPointer st.m_treeItems }

/-- `Model::sendEvent` (model.cpp lines 225-233): dispatch the event string to
the resolved item's handler, no-op on failed resolution. -/
def Model.sendEvent (st : Model) (i : QModelIndex) (event : String) : Model × List Event :=
  match Model.getItemFromIndex st i with
  | none => (st, [])
  | some _ => (st, [Event.handleEventCall i.internalPointer event])

/-- `Model::size` (model.cpp lines 235-238). -/
def Model.size (st : Model) : Nat := st.m_treeItems.length

/-- `Model::setExpanded` (model.cpp lines 240-248). -/
def Model.setExpanded (st : Model) (i : QModelIndex) : Model :=
  match Model.getItemFromIndex st i with
  | none => st
  | some item =>
    if item.getType ≠ "namespace" then st
    else { st with m_expanded := insertName item.getName st.m_expanded }

/-- `Model::setCollapsed` (model.cpp lines 250-258). -/
def Model.setCollapsed (st : Model) (i : QModelIndex) : Model :=
  match Model.getItemFromIndex st i with
  | none => st
  | some item =>
    if item.getType ≠ "namespace" then st
    else { st with m_expanded := st.m_expanded.filter (fun nm => nm ≠ item.getName) }

/-- `Model::addRootItem` (model.cpp lines 260-275): a null handle is a no-op;
otherwise `beginInsertRows(QModelIndex(), size, size)`, `setRow(size)`,
append, `endInsertRows`.  (`setWeakPointer` stores a self-reference inside the
item and has no counterpart in the value model.) -/
def Model.addRootItem (st : Model) (serverItem : Option TreeItem) : Model × List Event :=
  match serverItem with
  | none => (st, [])
  | some item =>
    let insertIndex : Int := (st.m_treeItems.length : Int)
    ({ st with m_treeItems := st.m_treeItems ++ [item.setRow insertIndex] },
     [Event.beginInsertRows QModelIndex.invalid insertIndex insertIndex,
      Event.endInsertRows])

/-- `Model::removeRootItem` (model.cpp lines 277-285): a null handle is a
no-op; otherwise `beginRemoveRows(QModelIndex(), item->row(), item->row())`,
`removeAll` (removal by pointer identity, here `id`), `endRemoveRows`.  The
notifications are emitted whether or not the item is present, and no
surviving row is renumbered. -/
def Model.removeRootItem (st : Model) (item : Option TreeItem) : Model × List Event :=
  match item with
  | none => (st, [])
  | some it =>
    ({ st with m_treeItems := st.m_treeItems.filter (fun t => t.dataOf.id ≠ it.dataOf.id) },
     [Event.beginRemoveRows QModelIndex.invalid it.row it.row,
      Event.endRemoveRows])

/-- Modelled from the spec: the recursive body of
`QAbstractItemModel::match(start, role, value, -1, MatchFixedString |
MatchCaseSensitive | MatchRecursive)` for the `itemOriginalName` role — a
pre-order walk over the given sibling list (`base` is the parent path and `r`
the row of the first sibling) collecting every index whose original name
equals `text` exactly and case-sensitively, recursing into each node's
children from their first child on. -/
def matchForestFrom (text : String) (base : List Nat) (r : Nat) (l : List TreeItem) :
    List QModelIndex :=
  match l with
  | [] => []
  | TreeItem.node d cs :: ts =>
    (if d.name = text then [QModelIndex.idx (r : Int) 0 (base ++ [r])] else [])
      ++ matchForestFrom text (base ++ [r]) 0 cs
      ++ matchForestFrom text base (r + 1) ts
termination_by sizeOf l

/-- Modelled from the spec: `QAbstractItemModel::match` as invoked by
`Model::restoreOpenedNamespaces` — an invalid start (or a start off the single
display column) produces no hits; otherwise the search covers the rows of the
start's parent from the start's row on, recursively. -/
def Model.matchRecursive (st : Model) (start : QModelIndex) (text : String) :
    List QModelIndex :=
  match start with
  | .invalid => []
  | .idx _ c q =>
    if c ≠ 0 then []
    else
      let pq := q.dropLast
      let siblings :=
        match pq, nodeAtPath st.m_treeItems pq with
        | [], _ => st.m_treeItems
        | _, some p => p.children
        | _, none => []
      matchForestFrom text pq (q.getLastD 0) (siblings.drop (q.getLastD 0))

/-- The `foreach` loops of `Model::restoreOpenedNamespaces` (model.cpp lines
294-303): for each name in the snapshot, emit `expand` for every match. -/
def expandEvents (st : Model) (searchFrom : QModelIndex) : List String → List Event
  | [] => []
  | nm :: rest =>
    (Model.matchRecursive st searchFrom nm).map Event.expand
      ++ expandEvents st searchFrom rest

/-- `Model::restoreOpenedNamespaces` (model.cpp lines 287-304): snapshot
`m_expanded`, clear it, compute `searchFrom = index(0, 0, dbIndex)`, then for
every snapshotted name emit `expand` on every recursive case-sensitive
fixed-string match by original name. -/
def Model.restoreOpenedNamespaces (st : Model) (dbIndex : QModelIndex) :
    Model × List Event :=
  let expandedCache := st.m_expanded
  let st0 := { st with m_expanded := [] }
  let res := Model.index st0 0 0 dbIndex
  (res.1, expandEvents res.1 res.2 expandedCache)

/-- `Model::onItemChanged` (model.cpp lines 139-150): bail out on a null or
expired weak pointer, on an invalid index, or on a childless item; otherwise
emit `dataChanged(index, index)`. -/
def Model.onItemChanged (st : Model) (w : Option (List Nat)) : List Event :=
  match w with
  | none => []
  | some q =>
    match nodeAtPath st.m_treeItems q with
    | none => []
    | some item =>
      let index := Model.getIndexFromItem st (some q)
      if ¬ index.isValid ∨ item.childCount = 0 then []
      else [Event.dataChanged index index]

/-- `Model::onItemChildsLoaded` (model.cpp lines 152-178): bail out on a null
or expired weak pointer or an invalid index; emit the insert bracket over rows
`[0, childCount-1]`; for a database item also emit `expand(index)` and then
either run the restoration pass (option enabled) or clear `m_expanded`
(option disabled).  The configuration read
`settings.value("app/reopenNamespacesOnReload", true)` is passed in as the
`reopenNamespacesOnReload` argument. -/
def Model.onItemChildsLoaded (st : Model) (w : Option (List Nat))
    (reopenNamespacesOnReload : Bool) : Model × List Event :=
  match w with
  | none => (st, [])
  | some q =>
    match nodeAtPath st.m_treeItems q with
    | none => (st, [])
    | some treeItem =>
      let index := Model.getIndexFromItem st (some q)
      if ¬ index.isValid then (st, [])
      else
        let evs := [Event.beginInsertRows index 0 ((treeItem.childCount : Int) - 1),
                    Event.endInsertRows]
        if treeItem.getType = "database" then
          let evs := evs ++ [Event.expand index]
          if reopenNamespacesOnReload then
            let res := Model.restoreOpenedNamespaces st index
            (res.1, evs ++ res.2)
          else ({ st with m_expanded := [] }, evs)
        else (st, evs)

/-- `Model::onItemChildsUnloaded` (model.cpp lines 180-192): bail out on a null
or expired weak pointer or an invalid index; otherwise emit the remove bracket
over rows `[0, childCount-1]` (the pre-removal count). -/
def Model.onItemChildsUnloaded (st : Model) (w : Option (List Nat)) : Model × List Event :=
  match w with
  | none => (st, [])
  | some q =>
    match nodeAtPath st.m_treeItems q with
    | none => (st, [])
    | some item =>
      let index := Model.getIndexFromItem st (some q)
      if ¬ index.isValid then (st, [])
      else
        (st, [Event.beginRemoveRows index 0 ((item.childCount : Int) - 1),
              Event.endRemoveRows])

/-! ## Concrete fixtures used by witnesses and counterexamples -/

/-- A leaf server item with identity 1 and stored row 0. -/
def itemA : TreeItem :=
  .node { id := 1, name := "A", displayName := "A", itype := "server", iconUrl := "",
          enabled := true, row := 0, canFetchMoreF := false, metadata := [] } []

/-- A leaf server item with identity 2 and stored row 5. -/
def itemB : TreeItem :=
  .node { id := 2, name := "B", displayName := "B", itype := "server", iconUrl := "",
          enabled := true, row := 5, canFetchMoreF := false, metadata := [] } []

/-- A leaf server item with identity 3 and stored row 7. -/
def itemC : TreeItem :=
  .node { id := 3, name := "C", displayName := "C", itype := "server", iconUrl := "",
          enabled := true, row := 7, canFetchMoreF := false, metadata := [] } []

/-- A server item with identity 4, stored row 0 and one child (`itemB`). -/
def itemD : TreeItem :=
  .node { id := 4, name := "D", displayName := "D", itype := "server", iconUrl := "",
          enabled := true, row := 0, canFetchMoreF := false, metadata := [] } [itemB]

/-! ## Claims C1, C9, C10: root-list dynamics -/

/-- The model state after `addRootItem(A); addRootItem(B); removeRootItem(A)`
starting from the empty model. -/
def c1FinalState : Model :=
  (Model.removeRootItem
    (Model.addRootItem
      (Model.addRootItem { m_treeItems := [], m_rawPointers := [], m_expanded := [] }
        (some itemA)).1
      (some itemB)).1
    (some itemA)).1

/-- C1: the claim demands that after `removeRootItem` removes the node at
position `k`, every later root's `row()` is renumbered down by 1.  The code
performs no renumbering, so the row invariant `row() == position` breaks: on
the root list `[A, B]` built by two `addRootItem` calls, removing `A` leaves
`size() == 1` (as claimed) but the single remaining root (position 0) still
reports the stale row 1.  This theorem evaluates the model at that failing
input. -/
theorem c1_remove_does_not_renumber_rows :
    Model.size c1FinalState = 1 ∧ c1FinalState.m_treeItems.map TreeItem.row = [1] := by
  decide

/-- C9 fails as stated: `removeRootItem` on a node that is not in the root
list does leave the root list unchanged, but it still emits the
about-to-remove/removed notification bracket (over the absent node's stored
row), contradicting "no remove notifications reach the consumer". -/
theorem c9_counterexample_notifications_emitted :
    Model.removeRootItem { m_treeItems := [itemA], m_rawPointers := [], m_expanded := [] }
        (some itemB)
      = ({ m_treeItems := [itemA], m_rawPointers := [], m_expanded := [] },
         [Event.beginRemoveRows QModelIndex.invalid 5 5, Event.endRemoveRows]) := by
  rfl

/-- C9 (amended): `removeRootItem` called with a non-null node that is not
present in the root list leaves the root list, `size()`, and every remaining
node's row unchanged, but still emits the about-to-remove/removed notification
bracket spanning the node's stored row. -/
theorem c9_remove_absent_keeps_state (st : Model) (it : TreeItem)
    (h : ∀ t ∈ st.m_treeItems, t.dataOf.id ≠ it.dataOf.id) :
    Model.removeRootItem st (some it)
      = (st, [Event.beginRemoveRows QModelIndex.invalid it.row it.row,
              Event.endRemoveRows]) := by
  have hf : st.m_treeItems.filter (fun t => t.dataOf.id ≠ it.dataOf.id) = st.m_treeItems := by
    apply List.filter_eq_self.mpr
    intro a ha
    exact decide_eq_true (h a ha)
  unfold Model.removeRootItem
  dsimp only
  rw [hf]

/-- Witness for C9's amended theorem at a concrete absent item. -/
theorem c9_witness :
    Model.removeRootItem { m_treeItems := [itemA], m_rawPointers := [], m_expanded := [] }
        (some itemC)
      = ({ m_treeItems := [itemA], m_rawPointers := [], m_expanded := [] },
         [Event.beginRemoveRows QModelIndex.invalid 7 7, Event.endRemoveRows]) :=
  c9_remove_absent_keeps_state _ itemC (by decide)

/-- C10: `addRootItem` with a null handle is a no-op (state unchanged, no
notifications); a non-null node is appended at row equal to the previous
size, with that row assigned to it, inside an insert bracket spanning exactly
that row. -/
theorem c10_add_root_item (st : Model) :
    Model.addRootItem st none = (st, []) ∧
    ∀ it : TreeItem,
      Model.addRootItem st (some it)
        = ({ st with
             m_treeItems := st.m_treeItems ++ [it.setRow (st.m_treeItems.length : Int)] },
           [Event.beginInsertRows QModelIndex.invalid (st.m_treeItems.length : Int)
              (st.m_treeItems.length : Int),
            Event.endInsertRows]) :=
  ⟨rfl, fun _ => rfl⟩

/-! ## Helper lemmas about state preservation and resolution -/

theorem mem_insertPath (x q : List Nat) (l : List (List Nat)) (h : x ∈ l) :
    x ∈ insertPath q l := by
  unfold insertPath
  split
  · exact h
  · exact List.mem_cons_of_mem _ h

/-- `Model::index` only ever grows the raw-pointer registry; the tree and the
expanded set are untouched. -/
theorem Model.index_fst (st : Model) (r c : Int) (p : QModelIndex) :
    ((Model.index st r c p).1).m_treeItems = st.m_treeItems ∧
    ((Model.index st r c p).1).m_expanded = st.m_expanded ∧
    ∀ x ∈ st.m_rawPointers, x ∈ ((Model.index st r c p).1).m_rawPointers := by
  unfold Model.index
  cases Model.indexPath st r c p with
  | none => exact ⟨rfl, rfl, fun x hx => hx⟩
  | some q => exact ⟨rfl, rfl, fun x hx => mem_insertPath x q _ hx⟩

/-- `Model::restoreOpenedNamespaces` clears `m_expanded`, keeps the tree, and
only grows the registry. -/
theorem Model.restore_fst (st : Model) (i : QModelIndex) :
    ((Model.restoreOpenedNamespaces st i).1).m_treeItems = st.m_treeItems ∧
    ((Model.restoreOpenedNamespaces st i).1).m_expanded = [] ∧
    ∀ x ∈ st.m_rawPointers, x ∈ ((Model.restoreOpenedNamespaces st i).1).m_rawPointers := by
  unfold Model.restoreOpenedNamespaces
  dsimp only
  exact Model.index_fst { st with m_expanded := [] } 0 0 i

/-- Resolution of a registered, alive, valid index in `rowCount`. -/
theorem Model.rowCount_resolved (st : Model) (q : List Nat) (t : TreeItem) (r : Int)
    (hres : nodeAtPath st.m_treeItems q = some t) (hreg : q ∈ st.m_rawPointers)
    (hr : 0 ≤ r) :
    Model.rowCount st (QModelIndex.idx r 0 q) = (t.childCount : Int) := by
  have hv : (QModelIndex.idx r 0 q).isValid = true := by
    simp [QModelIndex.isValid, hr]
  unfold Model.rowCount Model.getItemFromIndex
  dsimp only
  rw [if_pos ⟨hv, hreg⟩, hres]
  simp [QModelIndex.column]

/-- `Model::getIndexFromItem` on an alive node. -/
theorem Model.getIndexFromItem_resolved (st : Model) (q : List Nat) (t : TreeItem)
    (hres : nodeAtPath st.m_treeItems q = some t) :
    Model.getIndexFromItem st (some q)
      = QModelIndex.idx (rowOfPath st.m_treeItems q) 0 q := by
  unfold Model.getIndexFromItem
  dsimp only
  rw [hres]

/-! ## Claims C6, C7, C8: query surface and the changed-signal handler -/

/-- C6: an index that resolves to no node (invalid, freed, stale or never
registered) behaves uniformly as "no node": `data` and `getMetadata` return
the empty variant, `canFetchMore` is false, and `fetchMore`, `setMetadata` and
`sendEvent` are no-ops that leave the state unchanged and dispatch nothing. -/
theorem c6_unresolved_uniform_no_node (st : Model) (i : QModelIndex)
    (h : Model.getItemFromIndex st i = none) :
    (∀ role, Model.data st i role = QVariant.empty) ∧
    (∀ key, Model.getMetadata st i key = QVariant.empty) ∧
    Model.canFetchMore st i = false ∧
    Model.fetchMore st i = (st, []) ∧
    (∀ key v, Model.setMetadata st i key v = st) ∧
    (∀ ev, Model.sendEvent st i ev = (st, [])) := by
  refine ⟨?_, ?_, ?_, ?_, ?_, ?_⟩ <;>
    simp [Model.data, Model.getMetadata, Model.canFetchMore, Model.fetchMore,
          Model.setMetadata, Model.sendEvent, h]

/-- Witness for C6 at the invalid index of the empty model. -/
theorem c6_witness :
    Model.data { m_treeItems := [], m_rawPointers := [], m_expanded := [] }
        QModelIndex.invalid Role.itemName = QVariant.empty ∧
    Model.canFetchMore { m_treeItems := [], m_rawPointers := [], m_expanded := [] }
        QModelIndex.invalid = false :=
  ⟨(c6_unresolved_uniform_no_node _ QModelIndex.invalid rfl).1 Role.itemName,
   (c6_unresolved_uniform_no_node _ QModelIndex.invalid rfl).2.2.1⟩

/-- C7 fails as stated ("for every index, flags(index) always includes the
selectable flag"): for an index that resolves to no node the code returns
`Qt::NoItemFlags`, which does not include the selectable flag. -/
theorem c7_counterexample_no_selectable :
    (Model.flags { m_treeItems := [], m_rawPointers := [], m_expanded := [] }
        QModelIndex.invalid).selectable = false := by
  rfl

/-- C7 (amended): for every index that resolves to a node, `flags` includes
the selectable flag, and includes the enabled flag iff the node's enabled flag
is set (a disabled node remains selectable); an index resolving to no node
gets no flags at all. -/
theorem c7_flags_selectable_enabled (st : Model) (i : QModelIndex) (t : TreeItem)
    (h : Model.getItemFromIndex st i = some t) :
    Model.flags st i = { selectable := true, enabled := t.isEnabled } := by
  unfold Model.flags
  rw [h]

/-- Witness for C7's amended theorem on a registered root item. -/
theorem c7_witness :
    Model.flags { m_treeItems := [itemA], m_rawPointers := [[0]], m_expanded := [] }
        (QModelIndex.idx 0 0 [0]) = { selectable := true, enabled := true } :=
  c7_flags_selectable_enabled _ (QModelIndex.idx 0 0 [0]) itemA rfl

/-- C8: a changed signal from a node that resolves to a valid index emits a
single `dataChanged` notification for exactly that index iff the node
currently has at least one child; a changed signal from a childless node, from
an expired weak pointer, or from a null weak pointer emits nothing. -/
theorem c8_on_item_changed (st : Model) (q : List Nat) (t : TreeItem)
    (hres : nodeAtPath st.m_treeItems q = some t)
    (hval : 0 ≤ rowOfPath st.m_treeItems q) :
    (Model.onItemChanged st (some q)
        = [Event.dataChanged (QModelIndex.idx (rowOfPath st.m_treeItems q) 0 q)
                             (QModelIndex.idx (rowOfPath st.m_treeItems q) 0 q)]
      ↔ 0 < t.childCount) ∧
    (t.childCount = 0 → Model.onItemChanged st (some q) = []) ∧
    (∀ q2, nodeAtPath st.m_treeItems q2 = none → Model.onItemChanged st (some q2) = []) ∧
    Model.onItemChanged st none = [] := by
  have hidx : Model.getIndexFromItem st (some q)
      = QModelIndex.idx (rowOfPath st.m_treeItems q) 0 q := by
    unfold Model.getIndexFromItem
    dsimp only
    rw [hres]
  have hv : (QModelIndex.idx (rowOfPath st.m_treeItems q) 0 q).isValid = true := by
    simp [QModelIndex.isValid, hval]
  refine ⟨?_, ?_, ?_, ?_⟩
  · unfold Model.onItemChanged
    dsimp only
    rw [hres, hidx, hv]
    rcases Nat.eq_zero_or_pos t.childCount with hc | hc
    · simp [hc]
    · simp [Nat.pos_iff_ne_zero.mp hc, hc]
  · intro hc
    unfold Model.onItemChanged
    dsimp only
    rw [hres, hidx, hv]
    simp [hc]
  · intro q2 h2
    unfold Model.onItemChanged
    dsimp only
    rw [h2]
  · rfl

/-- Witness for C8 on a server item with one child. -/
theorem c8_witness :
    Model.onItemChanged { m_treeItems := [itemD], m_rawPointers := [], m_expanded := [] }
        (some [0])
      = [Event.dataChanged (QModelIndex.idx 0 0 [0]) (QModelIndex.idx 0 0 [0])] :=
  (c8_on_item_changed { m_treeItems := [itemD], m_rawPointers := [], m_expanded := [] }
      [0] itemD rfl (by decide)).1.mpr (by decide)

/-! ## Claims C3, C4: the children-loaded handler -/

/-- Normal form of `onItemChildsLoaded` once the weak pointer resolves to a
node whose index is valid. -/
theorem Model.onItemChildsLoaded_resolved (st : Model) (q : List Nat) (t : TreeItem)
    (b : Bool)
    (hres : nodeAtPath st.m_treeItems q = some t)
    (hval : 0 ≤ rowOfPath st.m_treeItems q) :
    Model.onItemChildsLoaded st (some q) b
      = (if t.getType = "database" then
           if b then
             ((Model.restoreOpenedNamespaces st
                 (QModelIndex.idx (rowOfPath st.m_treeItems q) 0 q)).1,
              [Event.beginInsertRows (QModelIndex.idx (rowOfPath st.m_treeItems q) 0 q) 0
                 ((t.childCount : Int) - 1),
               Event.endInsertRows,
               Event.expand (QModelIndex.idx (rowOfPath st.m_treeItems q) 0 q)]
                ++ (Model.restoreOpenedNamespaces st
                      (QModelIndex.idx (rowOfPath st.m_treeItems q) 0 q)).2)
           else
             ({ st with m_expanded := [] },
              [Event.beginInsertRows (QModelIndex.idx (rowOfPath st.m_treeItems q) 0 q) 0
                 ((t.childCount : Int) - 1),
               Event.endInsertRows,
               Event.expand (QModelIndex.idx (rowOfPath st.m_treeItems q) 0 q)])
         else
           (st,
            [Event.beginInsertRows (QModelIndex.idx (rowOfPath st.m_treeItems q) 0 q) 0
               ((t.childCount : Int) - 1),
             Event.endInsertRows])) := by
  have hidx := Model.getIndexFromItem_resolved st q t hres
  have hv : (QModelIndex.idx (rowOfPath st.m_treeItems q) 0 q).isValid = true := by
    simp [QModelIndex.isValid, hval]
  unfold Model.onItemChildsLoaded
  dsimp only
  rw [hres]
  dsimp only
  rw [hidx]
  simp only [hv, not_true, if_false, Bool.false_eq_true, ite_false]
  split
  · cases b
    · rfl
    · rfl
  · rfl

/-- C3: for every node that still resolves when its children-loaded event is
handled (weak pointer alive, pointer registered, valid row), with child count
`C` at that moment, the handler's event list starts with the begin-insert
bracket over rows `[0, C-1]` under the node's index immediately followed by
the matching end-insert (no structural mutation happens at all: the tree is
unchanged), and `rowCount` of that index equals `C` afterwards. -/
theorem c3_children_loaded_bracket (st : Model) (q : List Nat) (t : TreeItem) (b : Bool)
    (hres : nodeAtPath st.m_treeItems q = some t)
    (hreg : q ∈ st.m_rawPointers)
    (hval : 0 ≤ rowOfPath st.m_treeItems q) :
    ∃ rest,
      (Model.onItemChildsLoaded st (some q) b).2
        = Event.beginInsertRows (QModelIndex.idx (rowOfPath st.m_treeItems q) 0 q) 0
            ((t.childCount : Int) - 1)
          :: Event.endInsertRows :: rest ∧
      ((Model.onItemChildsLoaded st (some q) b).1).m_treeItems = st.m_treeItems ∧
      Model.rowCount (Model.onItemChildsLoaded st (some q) b).1
          (QModelIndex.idx (rowOfPath st.m_treeItems q) 0 q) = (t.childCount : Int) := by
  rw [Model.onItemChildsLoaded_resolved st q t b hres hval]
  by_cases hdb : t.getType = "database"
  · rw [if_pos hdb]
    cases b
    · refine ⟨[Event.expand (QModelIndex.idx (rowOfPath st.m_treeItems q) 0 q)],
        rfl, rfl, ?_⟩
      exact Model.rowCount_resolved _ q t _ hres hreg hval
    · rw [if_pos rfl]
      have hfst := Model.restore_fst st (QModelIndex.idx (rowOfPath st.m_treeItems q) 0 q)
      refine ⟨Event.expand (QModelIndex.idx (rowOfPath st.m_treeItems q) 0 q)
          :: (Model.restoreOpenedNamespaces st
                (QModelIndex.idx (rowOfPath st.m_treeItems q) 0 q)).2,
        rfl, hfst.1, ?_⟩
      refine Model.rowCount_resolved _ q t _ ?_ ?_ hval
      · rw [hfst.1]; exact hres
      · exact hfst.2.2 q hreg
  · rw [if_neg hdb]
    refine ⟨[], rfl, rfl, ?_⟩
    exact Model.rowCount_resolved _ q t _ hres hreg hval

/-- Witness for C3 on a registered server item with one child (option
disabled; the bracket spans rows [0, 0]). -/
theorem c3_witness :
    ∃ rest,
      (Model.onItemChildsLoaded
          { m_treeItems := [itemD], m_rawPointers := [[0]], m_expanded := [] }
          (some [0]) false).2
        = Event.beginInsertRows (QModelIndex.idx 0 0 [0]) 0 0
          :: Event.endInsertRows :: rest ∧
      ((Model.onItemChildsLoaded
          { m_treeItems := [itemD], m_rawPointers := [[0]], m_expanded := [] }
          (some [0]) false).1).m_treeItems = [itemD] ∧
      Model.rowCount (Model.onItemChildsLoaded
          { m_treeItems := [itemD], m_rawPointers := [[0]], m_expanded := [] }
          (some [0]) false).1 (QModelIndex.idx 0 0 [0]) = 1 :=
  c3_children_loaded_bracket
    { m_treeItems := [itemD], m_rawPointers := [[0]], m_expanded := [] }
    [0] itemD false rfl (by decide) (by decide)

/-- A database item with no children, identity 10 and stored row 0. -/
def dbItem : TreeItem :=
  .node { id := 10, name := "db0", displayName := "db0", itype := "database", iconUrl := "",
          enabled := true, row := 0, canFetchMoreF := false, metadata := [] } []

/-- C4 fails as stated: with the restore option disabled, the claim says no
expand-requests are issued; but the code emits `expand(index)` for a database
node unconditionally, before consulting the option. -/
theorem c4_counterexample_expand_when_disabled :
    Event.expand (QModelIndex.idx 0 0 [0])
      ∈ (Model.onItemChildsLoaded
          { m_treeItems := [dbItem], m_rawPointers := [[0]], m_expanded := ["x"] }
          (some [0]) false).2 := by
  decide

/-- C4 (amended): for every children-loaded event on a database-type node that
resolves (alive, valid row), the handler always requests visual expansion of
that node itself; if the restore option is enabled it additionally runs the
restoration pass (whose state and events are appended); if the option is
disabled, the expansion-tracking set is cleared instead and no events beyond
the bracket and that single expand-request are emitted. -/
theorem c4_database_children_loaded (st : Model) (q : List Nat) (t : TreeItem)
    (hres : nodeAtPath st.m_treeItems q = some t)
    (hval : 0 ≤ rowOfPath st.m_treeItems q)
    (hdb : t.getType = "database") :
    Model.onItemChildsLoaded st (some q) false
      = ({ st with m_expanded := [] },
         [Event.beginInsertRows (QModelIndex.idx (rowOfPath st.m_treeItems q) 0 q) 0
            ((t.childCount : Int) - 1),
          Event.endInsertRows,
          Event.expand (QModelIndex.idx (rowOfPath st.m_treeItems q) 0 q)]) ∧
    Model.onItemChildsLoaded st (some q) true
      = ((Model.restoreOpenedNamespaces st
            (QModelIndex.idx (rowOfPath st.m_treeItems q) 0 q)).1,
         [Event.beginInsertRows (QModelIndex.idx (rowOfPath st.m_treeItems q) 0 q) 0
            ((t.childCount : Int) - 1),
          Event.endInsertRows,
          Event.expand (QModelIndex.idx (rowOfPath st.m_treeItems q) 0 q)]
           ++ (Model.restoreOpenedNamespaces st
                 (QModelIndex.idx (rowOfPath st.m_treeItems q) 0 q)).2) := by
  constructor
  · rw [Model.onItemChildsLoaded_resolved st q t false hres hval, if_pos hdb,
        if_neg Bool.false_ne_true]
  · rw [Model.onItemChildsLoaded_resolved st q t true hres hval, if_pos hdb, if_pos rfl]

/-- Witness for C4's amended theorem on a concrete database node with the
option disabled. -/
theorem c4_witness :
    Model.onItemChildsLoaded
        { m_treeItems := [dbItem], m_rawPointers := [[0]], m_expanded := ["x"] }
        (some [0]) false
      = ({ m_treeItems := [dbItem], m_rawPointers := [[0]], m_expanded := [] },
         [Event.beginInsertRows (QModelIndex.idx 0 0 [0]) 0 (-1),
          Event.endInsertRows,
          Event.expand (QModelIndex.idx 0 0 [0])]) :=
  (c4_database_children_loaded
      { m_treeItems := [dbItem], m_rawPointers := [[0]], m_expanded := ["x"] }
      [0] dbItem rfl (by decide) rfl).1

/-! ## Claim C2: index/parent round trip -/

theorem mem_insertPath_self (q : List Nat) (l : List (List Nat)) : q ∈ insertPath q l := by
  unfold insertPath
  split
  · assumption
  · exact List.mem_cons_self _ _

theorem descend_concat (s : List Nat) (i : Nat) : ∀ t : TreeItem,
    descend t (s ++ [i]) = (descend t s).bind (fun u => u.children.get? i) := by
  induction s with
  | nil =>
    intro t
    show descend t [i] = t.children.get? i
    simp only [descend]
    cases hx : t.children.get? i with
    | none => rfl
    | some c => rfl
  | cons j rest ih =>
    intro t
    show descend t (j :: (rest ++ [i]))
        = (descend t (j :: rest)).bind fun u => u.children.get? i
    simp only [descend]
    cases hj : t.children.get? j with
    | none => rfl
    | some c => exact ih c

theorem nodeAtPath_concat (roots : List TreeItem) (q : List Nat) (P : TreeItem) (i : Nat)
    (h : nodeAtPath roots q = some P) :
    nodeAtPath roots (q ++ [i]) = P.children.get? i := by
  cases q with
  | nil => simp [nodeAtPath] at h
  | cons j rest =>
    show nodeAtPath roots (j :: (rest ++ [i])) = _
    simp only [nodeAtPath] at h ⊢
    cases hj : roots.get? j with
    | none =>
      rw [hj] at h
      exact Option.noConfusion h
    | some t =>
      rw [hj] at h
      dsimp only at h ⊢
      rw [descend_concat rest i t, h]
      rfl

/-- A row-consistent index: either the invalid (root) index, or an index whose
internal pointer is registered and alive, whose column is 0 and whose row
equals the node's (nonnegative) row as reported by `TreeItem::row` — the
stored row for a root `ServerItem`, the position in the parent's children
otherwise.  Note that `Model::index` hands out indexes carrying the
*positional* row, which satisfy this predicate only while the root list's
stored rows agree with positions; after the unrenumbered removal of an
earlier root (the C1 bug) the handed-out root indexes fall outside it, and
the round trip fails on them (see `c2_counterexample_stale_root_row`). -/
def canonicalIndex (st : Model) (p : QModelIndex) : Prop :=
  p = QModelIndex.invalid ∨
  ∃ q t, q ∈ st.m_rawPointers ∧ nodeAtPath st.m_treeItems q = some t ∧
    0 ≤ rowOfPath st.m_treeItems q ∧
    p = QModelIndex.idx (rowOfPath st.m_treeItems q) 0 q

/-- C2 (amended): for every `(row, col, parent)` within bounds of the
addressed parent such that `index(row, col, parent)` returns a valid index,
`parent(index(row, col, parent))` equals `parent` whenever `parent` is
row-consistent (`canonicalIndex`: invalid, or registered, alive, column 0,
row equal to the node's `row()`); the registry additions made by `index` are
threaded into the `parent` call.  The unrestricted original claim is false:
`Model::parent` rebuilds the parent index from the node's stored row
(model.cpp line 98), so for a handed-out, positional root index of a root
whose stored row went stale through the unrenumbered removal of an earlier
root, the round trip returns the stale-row index instead (see
`c2_counterexample_stale_root_row`). -/
theorem c2_index_parent_roundtrip (st : Model) (r c : Int) (p : QModelIndex)
    (hp : canonicalIndex st p)
    (hv : ((Model.index st r c p).2).isValid = true) :
    (Model.parent (Model.index st r c p).1 (Model.index st r c p).2).2 = p := by
  unfold Model.index at hv ⊢
  cases hip : Model.indexPath st r c p with
  | none => rw [hip] at hv; simp [QModelIndex.isValid] at hv
  | some q' =>
    rw [hip] at hv
    dsimp only at hv ⊢
    have hhi : Model.hasIndex st r c p := by
      by_contra hno
      unfold Model.indexPath at hip
      rw [if_pos hno] at hip
      cases hip
    obtain ⟨h0r, h0c, hrlt, hclt⟩ := hhi
    have hc0 : c = 0 := by
      have hcc : Model.columnCount st p = 1 := rfl
      rw [hcc] at hclt
      omega
    subst hc0
    unfold Model.indexPath at hip
    rw [if_neg (not_not_intro ⟨h0r, h0c, hrlt, hclt⟩)] at hip
    rcases hp with rfl | ⟨pq, P, hpm, hpn, hpr, rfl⟩
    · -- parent is the invalid root index: the child is a root item
      have hgi : Model.getItemFromIndex st QModelIndex.invalid = none := rfl
      rw [hgi] at hip
      dsimp only at hip
      have hlen : r < (st.m_treeItems.length : Int) := by
        have : Model.rowCount st QModelIndex.invalid = (st.m_treeItems.length : Int) := rfl
        rw [this] at hrlt
        exact hrlt
      cases hg : st.m_treeItems.get? r.toNat with
      | none =>
        rw [List.get?_eq_none] at hg
        omega
      | some t0 =>
        rw [hg] at hip
        cases hip
        have hres1 : Model.getItemFromIndex
            { st with m_rawPointers := insertPath [r.toNat] st.m_rawPointers }
            (QModelIndex.idx r 0 [r.toNat]) = some t0 := by
          unfold Model.getItemFromIndex
          dsimp only
          rw [if_pos ⟨by simp [QModelIndex.isValid, h0r], mem_insertPath_self _ _⟩]
          show nodeAtPath st.m_treeItems [r.toNat] = some t0
          simp only [nodeAtPath]
          rw [hg]
          rfl
        unfold Model.parent
        dsimp only
        rw [hres1]
        rfl
    · -- parent resolves to node P at path pq
      have hpv : (QModelIndex.idx (rowOfPath st.m_treeItems pq) 0 pq).isValid = true := by
        simp [QModelIndex.isValid, hpr]
      have hgi : Model.getItemFromIndex st
          (QModelIndex.idx (rowOfPath st.m_treeItems pq) 0 pq) = some P := by
        unfold Model.getItemFromIndex
        dsimp only
        rw [if_pos ⟨hpv, hpm⟩]
        exact hpn
      have hrc : Model.rowCount st (QModelIndex.idx (rowOfPath st.m_treeItems pq) 0 pq)
          = (P.childCount : Int) :=
        Model.rowCount_resolved st pq P _ hpn hpm hpr
      rw [hrc] at hrlt
      have hrn : r.toNat < P.children.length := by
        have : P.childCount = P.children.length := rfl
        omega
      rw [hgi] at hip
      dsimp only at hip
      cases hg : P.children.get? r.toNat with
      | none =>
        rw [List.get?_eq_none] at hg
        omega
      | some ch =>
        rw [hg] at hip
        cases hip
        have hch : nodeAtPath st.m_treeItems (pq ++ [r.toNat]) = some ch := by
          rw [nodeAtPath_concat st.m_treeItems pq P r.toNat hpn]
          exact hg
        have hres1 : Model.getItemFromIndex
            { st with m_rawPointers := insertPath (pq ++ [r.toNat]) st.m_rawPointers }
            (QModelIndex.idx r 0 (pq ++ [r.toNat])) = some ch := by
          unfold Model.getItemFromIndex
          dsimp only
          rw [if_pos ⟨by simp [QModelIndex.isValid, h0r], mem_insertPath_self _ _⟩]
          exact hch
        have hpq_ne : pq ≠ [] := by
          intro hnil
          rw [hnil] at hpn
          simp [nodeAtPath] at hpn
        have hlen : ¬ (pq ++ [r.toNat]).length ≤ 1 := by
          rcases pq with _ | ⟨a, rest⟩
          · exact absurd rfl hpq_ne
          · simp
        unfold Model.parent
        dsimp only
        rw [hres1]
        rw [if_neg hlen]
        have hdl : (pq ++ [r.toNat]).dropLast = pq := by simp
        rw [hdl]

/-- A fixture model whose single root (`itemD`, stored row 0) is registered. -/
def stW2 : Model := { m_treeItems := [itemD], m_rawPointers := [[0]], m_expanded := [] }

/-- Witness for C2: the root index of `itemD` round-trips through
`parent(index(0, 0, ·))`. -/
theorem c2_witness :
    (Model.parent (Model.index stW2 0 0 (QModelIndex.idx 0 0 [0])).1
        (Model.index stW2 0 0 (QModelIndex.idx 0 0 [0])).2).2
      = QModelIndex.idx 0 0 [0] :=
  c2_index_parent_roundtrip stW2 0 0 (QModelIndex.idx 0 0 [0])
    (Or.inr ⟨[0], itemD, by decide, rfl, by decide, rfl⟩) (by decide)

/-- The model state after `addRootItem(A); addRootItem(D); removeRootItem(A)`
starting from the empty model (`itemD` has one child); the surviving root sits
at position 0 with stale stored row 1. -/
def c2FailState : Model :=
  (Model.removeRootItem
    (Model.addRootItem
      (Model.addRootItem { m_treeItems := [], m_rawPointers := [], m_expanded := [] }
        (some itemA)).1
      (some itemD)).1
    (some itemA)).1

/-- C2 fails as stated: in the reachable state `c2FailState`, the model hands
out the root index `idx(0, 0, [0])` for the survivor (positional row 0, stored
row 1); the triple `(0, 0, that index)` is within bounds — `index` returns a
valid child index — yet `parent(index(0, 0, that))` is `idx(1, 0, [0])`,
rebuilt from the stale stored row (model.cpp line 98), which differs from the
parent that was handed out. -/
theorem c2_counterexample_stale_root_row :
    (Model.index c2FailState 0 0 QModelIndex.invalid).2 = QModelIndex.idx 0 0 [0] ∧
    ((Model.index (Model.index c2FailState 0 0 QModelIndex.invalid).1 0 0
        (QModelIndex.idx 0 0 [0])).2).isValid = true ∧
    (Model.parent
        (Model.index (Model.index c2FailState 0 0 QModelIndex.invalid).1 0 0
          (QModelIndex.idx 0 0 [0])).1
        (Model.index (Model.index c2FailState 0 0 QModelIndex.invalid).1 0 0
          (QModelIndex.idx 0 0 [0])).2).2
      = QModelIndex.idx 1 0 [0] ∧
    QModelIndex.idx 1 0 [0] ≠ QModelIndex.idx 0 0 [0] := by
  decide

/-! ## Claim C5: the restoration pass -/

/-- The index `Qt`'s recursive match hands back for the node at path `q`:
row = last path component, column 0, pointer = the path. -/
def pathIdx (q : List Nat) : QModelIndex :=
  QModelIndex.idx ((q.getLastD 0 : Nat) : Int) 0 q

theorem descend_cons (D : TreeItem) (i : Nat) (s : List Nat) :
    descend D (i :: s) = (D.children.get? i).bind (fun t => descend t s) := by
  simp only [descend]
  cases D.children.get? i with
  | none => rfl
  | some c => rfl

/-- Characterization of the recursive fixed-string match: an index is
collected iff it is the `pathIdx` of a node reachable from one of the listed
siblings (sibling `i` sitting at row `r + i` under parent path `base`) whose
original name is exactly `text`. -/
theorem mem_matchForestFrom (text : String) (base : List Nat) (r : Nat) (l : List TreeItem)
    (e : QModelIndex) :
    e ∈ matchForestFrom text base r l
      ↔ ∃ (i : Nat) (t : TreeItem) (s : List Nat) (u : TreeItem),
          l.get? i = some t ∧ descend t s = some u ∧ u.getName = text ∧
          e = pathIdx (base ++ (r + i) :: s) := by
  match l with
  | [] =>
    simp [matchForestFrom]
  | TreeItem.node d cs :: ts =>
    have ih1 := fun e' => mem_matchForestFrom text (base ++ [r]) 0 cs e'
    have ih2 := fun e' => mem_matchForestFrom text base (r + 1) ts e'
    rw [matchForestFrom]
    constructor
    · intro he
      have hd : e ∈ (if d.name = text then [QModelIndex.idx (r : Int) 0 (base ++ [r])] else [])
          ∨ e ∈ matchForestFrom text (base ++ [r]) 0 cs
          ∨ e ∈ matchForestFrom text base (r + 1) ts := by
        simpa [List.mem_append, or_assoc] using he
      rcases hd with hA | hB | hC
      · have hname : d.name = text := by
          by_contra hne
          rw [if_neg hne] at hA
          cases hA
        rw [if_pos hname] at hA
        refine ⟨0, TreeItem.node d cs, [], TreeItem.node d cs, rfl, rfl, hname, ?_⟩
        rw [List.mem_singleton.mp hA]
        show QModelIndex.idx (r : Int) 0 (base ++ [r]) = pathIdx (base ++ [r + 0])
        unfold pathIdx
        rw [Nat.add_zero, List.getLastD_concat]
      · rcases (ih1 e).mp hB with ⟨i, t, s, u, hget, hdesc, hname, he'⟩
        refine ⟨0, TreeItem.node d cs, i :: s, u, rfl, ?_, hname, ?_⟩
        · rw [descend_cons]
          show (cs.get? i).bind (fun c => descend c s) = some u
          rw [hget]
          exact hdesc
        · rw [he']
          have hl : (base ++ [r]) ++ (0 + i) :: s = base ++ (r + 0) :: i :: s := by
            simp
          rw [hl]
      · rcases (ih2 e).mp hC with ⟨i, t, s, u, hget, hdesc, hname, he'⟩
        refine ⟨i + 1, t, s, u, ?_, hdesc, hname, ?_⟩
        · simpa using hget
        · rw [he']
          have hl : base ++ (r + 1 + i) :: s = base ++ (r + (i + 1)) :: s := by
            have : r + 1 + i = r + (i + 1) := by omega
            rw [this]
          rw [hl]
    · rintro ⟨i, t, s, u, hget, hdesc, hname, he'⟩
      have hgoal : e ∈ (if d.name = text then [QModelIndex.idx (r : Int) 0 (base ++ [r])] else [])
          ∨ e ∈ matchForestFrom text (base ++ [r]) 0 cs
          ∨ e ∈ matchForestFrom text base (r + 1) ts := by
        cases i with
        | zero =>
          have ht : t = TreeItem.node d cs := by
            have : some t = some (TreeItem.node d cs) := by simpa using hget.symm
            exact Option.some.inj this
          subst ht
          cases s with
          | nil =>
            have hu : u = TreeItem.node d cs := Option.some.inj hdesc.symm
            subst hu
            have hname' : d.name = text := hname
            left
            rw [if_pos hname']
            rw [he']
            show pathIdx (base ++ [r + 0]) ∈ _
            unfold pathIdx
            rw [Nat.add_zero, List.getLastD_concat]
            exact List.mem_singleton.mpr rfl
          | cons j s' =>
            right; left
            have hd' : (cs.get? j).bind (fun c => descend c s') = some u := by
              have := hdesc
              rw [descend_cons] at this
              exact this
            rcases Option.bind_eq_some.mp hd' with ⟨c, hc, hcd⟩
            refine (ih1 e).mpr ⟨j, c, s', u, hc, hcd, hname, ?_⟩
            rw [he']
            have hl : base ++ (0 + 0 + j) :: s' = base ++ (0 + j) :: s' := by simp
            have hl2 : (base ++ [r]) ++ (0 + j) :: s' = base ++ (r + 0) :: j :: s' := by simp
            rw [hl2]
        | succ i' =>
          right; right
          refine (ih2 e).mpr ⟨i', t, s, u, by simpa using hget, hdesc, hname, ?_⟩
          rw [he']
          have hl : base ++ (r + (i' + 1)) :: s = base ++ (r + 1 + i') :: s := by
            have : r + (i' + 1) = r + 1 + i' := by omega
            rw [this]
          rw [hl]
      simpa [List.mem_append, or_assoc] using hgoal
termination_by sizeOf l

/-- Membership in the event list produced by the restoration loops. -/
theorem mem_expandEvents (st : Model) (sf : QModelIndex) (names : List String) (e : Event) :
    e ∈ expandEvents st sf names
      ↔ ∃ nm ∈ names, ∃ m ∈ Model.matchRecursive st sf nm, e = Event.expand m := by
  induction names with
  | nil => simp [expandEvents]
  | cons nm rest ih =>
    simp only [expandEvents, List.mem_append, List.mem_map, ih, List.mem_cons]
    constructor
    · rintro (⟨m, hm, rfl⟩ | ⟨nm', hnm', m, hm, rfl⟩)
      · exact ⟨nm, Or.inl rfl, m, hm, rfl⟩
      · exact ⟨nm', Or.inr hnm', m, hm, rfl⟩
    · rintro ⟨nm', hnm' | hnm', m, hm, rfl⟩
      · exact Or.inl ⟨m, by rw [← hnm']; exact ⟨hm, rfl⟩⟩
      · exact Or.inr ⟨nm', hnm', m, hm, rfl⟩

/-- C5: `restoreOpenedNamespaces(dbIndex)` — for a `dbIndex` that resolves to
a node `D` — clears the tracked set before any matching begins (the returned
state's `m_expanded` is empty), and its emitted events are exactly one
expand-request per (snapshotted name, matching node) pair: an expand for the
node at path `dq ++ s` is emitted iff some name of the old tracked set equals
that node's original name, the node being any strict descendant of `D`
reached from `D`'s children (the search starts at `D`'s first child and is
recursive, exact and case-sensitive); zero, one, or many matches per name are
all expanded. -/
theorem c5_restore_expands_all_matches (st : Model) (dr : Int) (dq : List Nat) (D : TreeItem)
    (hres : Model.getItemFromIndex st (QModelIndex.idx dr 0 dq) = some D) :
    ((Model.restoreOpenedNamespaces st (QModelIndex.idx dr 0 dq)).1).m_expanded = [] ∧
    ∀ e : Event,
      e ∈ (Model.restoreOpenedNamespaces st (QModelIndex.idx dr 0 dq)).2
        ↔ ∃ nm ∈ st.m_expanded, ∃ (s : List Nat) (u : TreeItem), s ≠ [] ∧
            descend D s = some u ∧ u.getName = nm ∧
            e = Event.expand (pathIdx (dq ++ s)) := by
  have hval : (QModelIndex.idx dr 0 dq).isValid = true ∧ dq ∈ st.m_rawPointers := by
    by_contra hno
    unfold Model.getItemFromIndex at hres
    dsimp only at hres
    rw [if_neg hno] at hres
    exact Option.noConfusion hres
  have hpn : nodeAtPath st.m_treeItems dq = some D := by
    unfold Model.getItemFromIndex at hres
    dsimp only at hres
    rw [if_pos hval] at hres
    exact hres
  have h0dr : 0 ≤ dr := by
    have := hval.1
    simp [QModelIndex.isValid] at this
    exact this
  have hreg : dq ∈ st.m_rawPointers := hval.2
  have hrc : Model.rowCount { st with m_expanded := [] } (QModelIndex.idx dr 0 dq)
      = (D.childCount : Int) :=
    Model.rowCount_resolved { st with m_expanded := [] } dq D dr hpn hreg h0dr
  refine ⟨(Model.restore_fst st (QModelIndex.idx dr 0 dq)).2.1, ?_⟩
  intro e
  unfold Model.restoreOpenedNamespaces
  dsimp only
  cases hg : D.children.get? 0 with
  | none =>
    have hnil : D.children = [] := by
      rw [List.get?_eq_none] at hg
      exact List.length_eq_zero.mp (by omega)
    have hip : Model.indexPath { st with m_expanded := [] } 0 0 (QModelIndex.idx dr 0 dq)
        = none := by
      unfold Model.indexPath
      rw [if_pos ?_]
      intro hhi
      obtain ⟨_, _, hlt, _⟩ := hhi
      rw [hrc] at hlt
      have : D.childCount = 0 := by
        show D.children.length = 0
        rw [hnil]
        rfl
      omega
    have hidx0 : Model.index { st with m_expanded := [] } 0 0 (QModelIndex.idx dr 0 dq)
        = ({ st with m_expanded := [] }, QModelIndex.invalid) := by
      unfold Model.index
      rw [hip]
    rw [hidx0]
    rw [mem_expandEvents]
    constructor
    · rintro ⟨nm, hnm, m, hm, rfl⟩
      simp [Model.matchRecursive] at hm
    · rintro ⟨nm, hnm, s, u, hs, hdesc, hname, rfl⟩
      cases s with
      | nil => exact absurd rfl hs
      | cons j s' =>
        rw [descend_cons, hnil] at hdesc
        simp at hdesc
  | some c0 =>
    have hcc : 0 < D.childCount := by
      rcases Nat.eq_zero_or_pos D.childCount with h0 | hpos
      · have hnil : D.children = [] := List.length_eq_zero.mp h0
        rw [hnil] at hg
        simp at hg
      · exact hpos
    have hhi : Model.hasIndex { st with m_expanded := [] } 0 0 (QModelIndex.idx dr 0 dq) := by
      unfold Model.hasIndex
      refine ⟨le_refl 0, le_refl 0, ?_, ?_⟩
      · rw [hrc]
        exact_mod_cast hcc
      · exact Int.zero_lt_one
    have hip : Model.indexPath { st with m_expanded := [] } 0 0 (QModelIndex.idx dr 0 dq)
        = some (dq ++ [0]) := by
      unfold Model.indexPath
      rw [if_neg (not_not_intro hhi)]
      have hres0 : Model.getItemFromIndex { st with m_expanded := [] }
          (QModelIndex.idx dr 0 dq) = some D := by
        unfold Model.getItemFromIndex
        dsimp only
        rw [if_pos hval]
        exact hpn
      rw [hres0]
      dsimp only
      rw [show ((0 : Int).toNat) = 0 from rfl, hg]
    have hmr : ∀ st' : Model, st'.m_treeItems = st.m_treeItems → ∀ nm : String,
        Model.matchRecursive st' (QModelIndex.idx 0 0 (dq ++ [0])) nm
          = matchForestFrom nm dq 0 D.children := by
      intro st' hst nm
      unfold Model.matchRecursive
      dsimp only
      rw [if_neg (fun h => h rfl)]
      rw [hst, List.dropLast_concat, List.getLastD_concat, List.drop_zero]
      cases dq with
      | nil => simp [nodeAtPath] at hpn
      | cons a as =>
        rw [hpn]
    have hidx2 : Model.index { st with m_expanded := [] } 0 0 (QModelIndex.idx dr 0 dq)
        = ({ m_treeItems := st.m_treeItems,
             m_rawPointers := insertPath (dq ++ [0]) st.m_rawPointers,
             m_expanded := [] },
           QModelIndex.idx 0 0 (dq ++ [0])) := by
      unfold Model.index
      rw [hip]
    rw [hidx2]
    dsimp only
    rw [mem_expandEvents]
    constructor
    · rintro ⟨nm, hnm, m, hm, rfl⟩
      rw [hmr { m_treeItems := st.m_treeItems,
                m_rawPointers := insertPath (dq ++ [0]) st.m_rawPointers,
                m_expanded := [] } rfl nm] at hm
      rcases (mem_matchForestFrom nm dq 0 D.children m).mp hm with
        ⟨i, t, s, u, hget, hdesc, hname, rfl⟩
      refine ⟨nm, hnm, i :: s, u, List.cons_ne_nil i s, ?_, hname, ?_⟩
      · rw [descend_cons, hget]
        exact hdesc
      · rw [Nat.zero_add]
    · rintro ⟨nm, hnm, s, u, hs, hdesc, hname, rfl⟩
      cases s with
      | nil => exact absurd rfl hs
      | cons i s' =>
        rw [descend_cons] at hdesc
        rcases Option.bind_eq_some.mp hdesc with ⟨t, hget, hdt⟩
        refine ⟨nm, hnm, pathIdx (dq ++ i :: s'), ?_, rfl⟩
        rw [hmr { m_treeItems := st.m_treeItems,
                  m_rawPointers := insertPath (dq ++ [0]) st.m_rawPointers,
                  m_expanded := [] } rfl nm]
        exact (mem_matchForestFrom nm dq 0 D.children _).mpr
          ⟨i, t, s', u, hget, hdt, hname, by rw [Nat.zero_add]⟩

/-- A namespace item named "users" with no children, identity 22. -/
def nsUsers2 : TreeItem :=
  .node { id := 22, name := "users", displayName := "users", itype := "namespace",
          iconUrl := "", enabled := true, row := 0, canFetchMoreF := false,
          metadata := [] } []

/-- A namespace item named "users" whose only child is `nsUsers2`, identity 21. -/
def nsUsers1 : TreeItem :=
  .node { id := 21, name := "users", displayName := "users", itype := "namespace",
          iconUrl := "", enabled := true, row := 0, canFetchMoreF := false,
          metadata := [] } [nsUsers2]

/-- A database item whose only child is `nsUsers1`, identity 20, stored row 0. -/
def dbWithNs : TreeItem :=
  .node { id := 20, name := "0", displayName := "db0", itype := "database",
          iconUrl := "", enabled := true, row := 0, canFetchMoreF := false,
          metadata := [] } [nsUsers1]

/-- A model whose single registered root is `dbWithNs` and whose tracked set
holds the name "users". -/
def stW5 : Model :=
  { m_treeItems := [dbWithNs], m_rawPointers := [[0]], m_expanded := ["users"] }

/-- Witness for C5: with "users" tracked, the restoration pass on the database
index emits an expand-request for the child namespace named "users" (its
grandchild of the same name is likewise characterized by the theorem). -/
theorem c5_witness :
    Event.expand (QModelIndex.idx 0 0 [0, 0])
      ∈ (Model.restoreOpenedNamespaces stW5 (QModelIndex.idx 0 0 [0])).2 :=
  ((c5_restore_expands_all_matches stW5 0 [0] dbWithNs rfl).2
      (Event.expand (QModelIndex.idx 0 0 [0, 0]))).mpr
    ⟨"users", by decide, [0], nsUsers1, by decide, rfl, rfl, rfl⟩

end ConnectionsTree

